import Mathlib

/-!
Verification of the cleaning core of `src/zsh-history-cleaner.py`.

Text is modelled as `List Char` (Python `str`); the relevant Python string
operations (`strip`, `lower`, `startswith`, `in`, `rstrip("\n\r")`) and the
few fixed regular expressions the source uses are embedded as executable
functions over character lists.  Python exceptions (`ValueError` raised by
`FilterRule.matches`, propagated through the pipeline) are modelled with
`Except String`.  `re.compile` for user regex rules is abstracted as a
caller-supplied compile function returning the compiled search predicate,
since no claim depends on the semantics of a user regex pattern.
-/

set_option maxRecDepth 10000

abbrev Str := List Char

/-- Characters treated as whitespace by Python `str.strip` and regex `\s`
(ASCII fragment; the inputs in this development are ASCII). -/
def isPySpace (c : Char) : Bool :=
  c == ' ' || c == '\t' || c == '\n' || c == '\r' || c == '\x0b' || c == '\x0c'

/-- Embeds Python `str.lower()` on command text (ASCII fragment). -/
def lowerL (s : Str) : Str := s.map Char.toLower

/-- Embeds Python `str.lower()` for the `match_type` tag kept as a Lean `String`. -/
def strToLower (s : String) : String := ⟨s.data.map Char.toLower⟩

/-- Embeds Python `pattern in text` (substring test). -/
def containsSub (text pat : Str) : Bool :=
  match text with
  | [] => pat.isEmpty
  | c :: t => pat.isPrefixOf (c :: t) || containsSub t pat

/-- Embeds Python `text.startswith(pat)`. -/
def startsWithL (text pat : Str) : Bool := pat.isPrefixOf text

/-- Embeds Python `text.endswith(pat)`. -/
def endsWithL (text pat : Str) : Bool := pat.reverse.isPrefixOf text.reverse

/-- Embeds Python `str.strip()` (remove leading and trailing whitespace). -/
def pyStrip (s : Str) : Str :=
  ((s.dropWhile isPySpace).reverse.dropWhile isPySpace).reverse

/-- Embeds Python `line.rstrip("\n\r")` (drop trailing newline and carriage-return characters). -/
def rstripNlCr (s : Str) : Str :=
  (s.reverse.dropWhile (fun c => c == '\n' || c == '\r')).reverse

/-- Helper for `collapseWs`: `prevWs` records whether the previous character was
whitespace already replaced by a single space. -/
def collapseWsAux : Str → Bool → Str
  | [], _ => []
  | c :: rest, prevWs =>
    if isPySpace c then
      if prevWs then collapseWsAux rest true
      else ' ' :: collapseWsAux rest true
    else c :: collapseWsAux rest false

/-- Embeds `re.sub(r"\s+", " ", s)`: every maximal whitespace run becomes one space. -/
def collapseWs (s : Str) : Str := collapseWsAux s false

/-- Helper for `subBackNl`: when `skipping` is set, the whitespace run whose
match was just replaced by a space is still being consumed. -/
def subBackNlAux : Str → Bool → Str
  | [], _ => []
  | c :: rest, skipping =>
    if skipping && isPySpace c then subBackNlAux rest true
    else if c == '\\' && (rest.takeWhile isPySpace).contains '\n' then
      ' ' :: subBackNlAux rest true
    else c :: subBackNlAux rest false

/-- Embeds `re.sub(r"\\\s*\n\s*", " ", s)`.  A match is a backslash followed by a
whitespace run containing at least one newline (the greedy `\s*\n\s*` always
consumes the whole whitespace run after the backslash when that run contains a
newline); each match is replaced by one space. -/
def subBackNl (s : Str) : Str := subBackNlAux s false

/-- Embeds `re.sub(r"\\\s*$", "", s)`: remove a final backslash that is followed
only by whitespace up to the end of the string (the whitespace is removed too). -/
def subTrailingBack (s : Str) : Str :=
  match s.reverse.dropWhile isPySpace with
  | '\\' :: rest => rest.reverse
  | _ => s

/-- Embeds `ZshHistoryCleaner.normalize_command`. -/
def normalize_command (command : Str) : Str :=
  subTrailingBack (subBackNl (collapseWs (pyStrip command)))

/-- Run-length encoding of a character list, used to evaluate the fixed
repeated-character regex patterns of the source. -/
def rle : Str → List (Char × Nat)
  | [] => []
  | c :: rest =>
    match rle rest with
    | [] => [(c, 1)]
    | (d, n) :: t => if c == d then (d, n + 1) :: t else (c, 1) :: (d, n) :: t

/-- Embeds `re.search(r"-{20,}", s)`: 20 or more consecutive dashes. -/
def hasDashRun (s : Str) : Bool :=
  (rle s).any fun p => p.1 == '-' && decide (20 ≤ p.2)

/-- Embeds `re.search(r"={20,}", s)`: 20 or more consecutive equals signs. -/
def hasEqualsRun (s : Str) : Bool :=
  (rle s).any fun p => p.1 == '=' && decide (20 ≤ p.2)

/-- Embeds `re.search(r"\s{10,}", s)`: 10 or more consecutive whitespace characters. -/
def wsRunCheck : Str → Nat → Bool
  | [], cnt => decide (10 ≤ cnt)
  | c :: rest, cnt =>
    if isPySpace c then wsRunCheck rest (cnt + 1)
    else decide (10 ≤ cnt) || wsRunCheck rest 0

/-- Whitespace-run noise check at the top level. -/
def hasWsRun (s : Str) : Bool := wsRunCheck s 0

/-- Embeds `re.search(r"(.)\1{15,}", s)`: some non-newline character repeated 16
or more times consecutively (`.` does not match a newline). -/
def hasLongCharRun (s : Str) : Bool :=
  (rle s).any fun p => p.1 != '\n' && decide (16 ≤ p.2)

/-- Part of the `\[.*\]{3,}` search: the list starts with three closing brackets. -/
def closeBrackets3At : Str → Bool
  | ']' :: ']' :: ']' :: _ => true
  | _ => false

/-- Part of the `\[.*\]{3,}` search: after an opening bracket, `.*` consumes
non-newline characters until three closing brackets start. -/
def scanAfterBracket : Str → Bool
  | [] => false
  | c :: rest => closeBrackets3At (c :: rest) || (c != '\n' && scanAfterBracket rest)

/-- Embeds `re.search(r"\[.*\]{3,}", s)`. -/
def hasProgressBars : Str → Bool
  | [] => false
  | '[' :: rest => scanAfterBracket rest || hasProgressBars rest
  | _ :: rest => hasProgressBars rest

/-- Embeds the `repetitive_patterns` loop of `is_command_worth_keeping`:
true when any of the five fixed noise regexes matches the command. -/
def hasRepetitivePattern (s : Str) : Bool :=
  hasDashRun s || hasEqualsRun s || hasProgressBars s || hasWsRun s || hasLongCharRun s

/-- Embeds the `FilterRule` class.  `compiled_regex` holds the abstracted
`re.compile(...).search` predicate for regex rules and `none` otherwise. -/
structure FilterRule where
  pattern : Str
  match_type : String
  case_sensitive : Bool
  compiled_regex : Option (Str → Bool)

/-- Embeds `FilterRule.__init__`.  `compile` abstracts `re.compile`: it returns
the search predicate of the compiled pattern, or `none` when the pattern does
not compile (Python `re.error`, re-raised as `ValueError`). -/
def mkFilterRule (pattern : Str) (match_type : String) (case_sensitive : Bool)
    (compile : Str → Bool → Option (Str → Bool)) : Except String FilterRule :=
  let mt := strToLower match_type
  if mt = "regex" then
    match compile pattern case_sensitive with
    | some f => .ok ⟨pattern, mt, case_sensitive, some f⟩
    | none => .error "Invalid regex pattern"
  else .ok ⟨pattern, mt, case_sensitive, none⟩

/-- Embeds `FilterRule.matches`.  The final `else` branch models the
`raise ValueError(f"Unknown match type: ...")` of the source. -/
def FilterRule.matches (r : FilterRule) (command : Str) : Except String Bool :=
  let text := if r.case_sensitive then command else lowerL command
  let pat := if r.case_sensitive then r.pattern else lowerL r.pattern
  if r.match_type = "exact" then .ok (text == pat)
  else if r.match_type = "contains" then .ok (containsSub text pat)
  else if r.match_type = "starts_with" then .ok (startsWithL text pat)
  else if r.match_type = "ends_with" then .ok (endsWithL text pat)
  else if r.match_type = "regex" then
    match r.compiled_regex with
    | some f => .ok (f command)
    | none => .error "regex rule without compiled pattern"
  else .error ("Unknown match type: " ++ r.match_type)

/-- Embeds the shared loop body of `check_ignore_rules` / `check_allow_rules`:
first rule that matches wins; a raised `ValueError` propagates. -/
def checkRules : List FilterRule → Str → Except String Bool
  | [], _ => .ok false
  | r :: rs, command =>
    match r.matches command with
    | .error e => .error e
    | .ok true => .ok true
    | .ok false => checkRules rs command

/-- Embeds the configuration the cleaner carries: the two rule lists and
`max_command_length` (a Python `int`, hence `Int`). -/
structure CleanerConfig where
  max_command_length : Int
  ignore_rules : List FilterRule
  allow_rules : List FilterRule

/-- Embeds `ZshHistoryCleaner.check_allow_rules`. -/
def check_allow_rules (cfg : CleanerConfig) (command : Str) : Except String Bool :=
  checkRules cfg.allow_rules command

/-- Embeds `ZshHistoryCleaner.check_ignore_rules`. -/
def check_ignore_rules (cfg : CleanerConfig) (command : Str) : Except String Bool :=
  checkRules cfg.ignore_rules command

/-- Embeds the `^: (\d+:\d+);(.*)$` tail: without `re.MULTILINE`, `.` does not
match a newline and `$` matches only at the end of the string or just before a
newline that is the last character.  Returns the text captured by `(.*)`. -/
def matchDotStarEnd (tail : Str) : Option Str :=
  if '\n' ∈ tail then
    if tail.getLast? = some '\n' ∧ '\n' ∉ tail.dropLast then some tail.dropLast
    else none
  else some tail

/-- Embeds `ZshHistoryCleaner.parse_history_entry`: `re.match(r"^: (\d+:\d+);(.*)$", line)`
applied to the whole (possibly multi-line) entry blob.  The greedy `\d+` groups
coincide with `takeWhile Char.isDigit` because no backtracking alternative can
succeed (`:` and `;` are not digits). -/
def parse_history_entry (line : Str) : Option (Str × Str) :=
  match line with
  | ':' :: ' ' :: rest =>
    let d1 := rest.takeWhile Char.isDigit
    match rest.dropWhile Char.isDigit with
    | ':' :: r2 =>
      let d2 := r2.takeWhile Char.isDigit
      match r2.dropWhile Char.isDigit with
      | ';' :: tail =>
        if d1 = [] ∨ d2 = [] then none
        else
          match matchDotStarEnd tail with
          | some c => some (d1 ++ ':' :: d2, c)
          | none => none
      | _ => none
    | _ => none
  | _ => none

/-- Embeds the output wire shape `f": {timestamp_part};{command}"`. -/
def fmtEntry (ts command : Str) : Str :=
  ':' :: ' ' :: (ts ++ ';' :: command)

/-- Embeds the `self.stats` counter dictionary. -/
structure Stats where
  total_lines : Nat := 0
  valid_entries : Nat := 0
  duplicates_removed : Nat := 0
  too_long_removed : Nat := 0
  malformed_removed : Nat := 0
  ignored_kept : Nat := 0
  allowed_removed : Nat := 0
  pattern_removed : Nat := 0
  final_entries : Nat := 0
deriving DecidableEq, Repr

/-- Embeds the mutable cleaner state: `seen_commands` (a set, modelled as a
duplicate-free list with membership), `cleaned_entries`, and `stats`. -/
structure CleanerState where
  seen_commands : List Str := []
  cleaned_entries : List Str := []
  stats : Stats := {}
deriving DecidableEq, Repr

/-- Embeds `self.seen_commands.add(normalized)` (Python set insertion). -/
def insertSeen (s : List Str) (x : Str) : List Str :=
  if x ∈ s then s else x :: s

/-- Embeds `ZshHistoryCleaner.is_command_worth_keeping`. -/
def is_command_worth_keeping (cfg : CleanerConfig) (command : Str) :
    Except String (Bool × String) :=
  let command := pyStrip command
  if command = [] then .ok (false, "empty")
  else
    match checkRules cfg.allow_rules command with
    | .error e => .error e
    | .ok true => .ok (false, "allow_rule_match")
    | .ok false =>
      match checkRules cfg.ignore_rules command with
      | .error e => .error e
      | .ok true => .ok (true, "ignore_rule_match")
      | .ok false =>
        if (command.length : Int) > cfg.max_command_length then .ok (false, "too_long")
        else if hasRepetitivePattern command then .ok (false, "repetitive_pattern")
        else .ok (true, "")

/-- Embeds `ZshHistoryCleaner._process_entry`. -/
def processEntry (cfg : CleanerConfig) (st : CleanerState) (entry : Str) :
    Except String CleanerState :=
  match parse_history_entry entry with
  | none =>
    .ok { st with stats := { st.stats with malformed_removed := st.stats.malformed_removed + 1 } }
  | some (ts, command) =>
    let st := { st with stats := { st.stats with valid_entries := st.stats.valid_entries + 1 } }
    match check_allow_rules cfg command with
    | .error e => .error e
    | .ok true =>
      .ok { st with stats := { st.stats with allowed_removed := st.stats.allowed_removed + 1 } }
    | .ok false =>
      match check_ignore_rules cfg command with
      | .error e => .error e
      | .ok true =>
        .ok { st with
          seen_commands := insertSeen st.seen_commands (normalize_command command),
          cleaned_entries := st.cleaned_entries ++ [fmtEntry ts command],
          stats := { st.stats with ignored_kept := st.stats.ignored_kept + 1 } }
      | .ok false =>
        match is_command_worth_keeping cfg command with
        | .error e => .error e
        | .ok (keep, reason) =>
          if keep then
            if normalize_command command ∈ st.seen_commands then
              .ok { st with stats :=
                { st.stats with duplicates_removed := st.stats.duplicates_removed + 1 } }
            else
              .ok { st with
                seen_commands := insertSeen st.seen_commands (normalize_command command),
                cleaned_entries := st.cleaned_entries ++ [fmtEntry ts command] }
          else
            if reason = "too_long" then
              .ok { st with stats :=
                { st.stats with too_long_removed := st.stats.too_long_removed + 1 } }
            else
              .ok { st with stats :=
                { st.stats with pattern_removed := st.stats.pattern_removed + 1 } }

/-- Sequential processing of a list of already-assembled entry blobs, as the
`process_history` loop does between flushes. -/
def processEntries (cfg : CleanerConfig) : CleanerState → List Str → Except String CleanerState
  | st, [] => .ok st
  | st, e :: es =>
    match processEntry cfg st e with
    | .error err => .error err
    | .ok st' => processEntries cfg st' es

/-- Embeds the new-entry test of `process_history`:
`line.startswith(": ") and ":" in line and ";" in line`. -/
def isEntryStart (line : Str) : Bool :=
  startsWithL line [':', ' '] && containsSub line [':'] && containsSub line [';']

/-- Embeds the line loop of `ZshHistoryCleaner.process_history`, with
`current` the entry blob under construction (empty list = Python falsy `""`). -/
def historyLoop (cfg : CleanerConfig) :
    List Str → Str → CleanerState → Except String CleanerState
  | [], current, st =>
    if current ≠ [] then processEntry cfg st current else .ok st
  | rawLine :: rest, current, st =>
    let line := rstripNlCr rawLine
    if isEntryStart line then
      if current ≠ [] then
        match processEntry cfg st current with
        | .error e => .error e
        | .ok st' => historyLoop cfg rest line st'
      else historyLoop cfg rest line st
    else
      if current ≠ [] then historyLoop cfg rest (current ++ '\n' :: line) st
      else
        historyLoop cfg rest current
          { st with stats := { st.stats with malformed_removed := st.stats.malformed_removed + 1 } }

/-- Embeds `ZshHistoryCleaner.process_history` on the list of physical lines of
the history file: runs the loop from an empty state and finally sets
`final_entries` to the number of kept entries. -/
def runHistory (cfg : CleanerConfig) (lines : List Str) : Except String CleanerState :=
  let st0 : CleanerState := { stats := { total_lines := lines.length } }
  match historyLoop cfg lines [] st0 with
  | .error e => .error e
  | .ok st =>
    .ok { st with stats := { st.stats with final_entries := st.cleaned_entries.length } }

instance {ε α : Type} [DecidableEq ε] [DecidableEq α] : DecidableEq (Except ε α) :=
  fun a b =>
    match a, b with
    | .ok x, .ok y =>
      if h : x = y then .isTrue (by rw [h]) else .isFalse (fun hh => h (Except.ok.inj hh))
    | .error e, .error f =>
      if h : e = f then .isTrue (by rw [h]) else .isFalse (fun hh => h (Except.error.inj hh))
    | .ok _, .error _ => .isFalse (fun hh => Except.noConfusion hh)
    | .error _, .ok _ => .isFalse (fun hh => Except.noConfusion hh)

/-- Normalized command of a stored cleaned entry (all stored entries parse). -/
def entryNorm (k : Str) : Str :=
  match parse_history_entry k with
  | some (_, c) => normalize_command c
  | none => []

/-- A parsed command that does not end in a carriage return.  Commands produced
by the pipeline always satisfy this because physical lines are
`rstrip("\n\r")`-ed before entry assembly. -/
def CmdOK (c : Str) : Prop := c.getLast? ≠ some '\r'

/-- Every command the blob can parse to satisfies `CmdOK`. -/
def BlobOK (b : Str) : Prop := ∀ ts c, parse_history_entry b = some (ts, c) → CmdOK c

/-- Conditions a stored cleaned entry satisfies, relative to the normalized
commands `prev` of the entries kept before it: it is a well-formed single-line
wire entry, its command matches no allow rule, and it was kept either by an
ignore-rule match or by passing the standard filters with an unseen
normalization. -/
def EntryCond (cfg : CleanerConfig) (prev : List Str) (k : Str) : Prop :=
  ∃ ts c, parse_history_entry k = some (ts, c) ∧ k = fmtEntry ts c ∧
    rstripNlCr k = k ∧
    check_allow_rules cfg c = .ok false ∧
    (check_ignore_rules cfg c = .ok true ∨
      (check_ignore_rules cfg c = .ok false ∧
        (∃ r, is_command_worth_keeping cfg c = .ok (true, r)) ∧
        normalize_command c ∉ prev))

/-- The kept-entry list invariant, threading the normalized commands of the
already-kept entries. -/
def GoodFrom (cfg : CleanerConfig) : List Str → List Str → Prop
  | _, [] => True
  | prev, k :: ks => EntryCond cfg prev k ∧ GoodFrom cfg (entryNorm k :: prev) ks

/-- The seen-set holds exactly the normalized commands of the kept entries. -/
def SeenIff (st : CleanerState) : Prop :=
  ∀ x, x ∈ st.seen_commands ↔ x ∈ st.cleaned_entries.map entryNorm

/-- The statistics accounting invariant of one run. -/
def Acct (st : CleanerState) : Prop :=
  st.stats.valid_entries =
    st.cleaned_entries.length + st.stats.allowed_removed + st.stats.too_long_removed +
      st.stats.pattern_removed + st.stats.duplicates_removed

/-- Abstract `re.compile` that never succeeds; no rule below uses regex mode. -/
def noCompile : Str → Bool → Option (Str → Bool) := fun _ _ => none

/-- A configuration with no rules and the default maximum length. -/
def cfgNoRules : CleanerConfig := ⟨500, [], []⟩

/-- Rule used in the `C2` witness: `contains "x"`, case-insensitive. -/
def ruleX : FilterRule := ⟨['x'], "contains", false, none⟩

/-- Configuration for the `C2` witness: the same rule in both lists. -/
def cfgBoth : CleanerConfig := ⟨500, [ruleX], [ruleX]⟩

/-- Rule used against `C3`: allow (force-remove) `contains " "`. -/
def ruleSpace : FilterRule := ⟨[' '], "contains", false, none⟩

/-- Configuration refuting `C3`: one allow rule matching a whitespace command. -/
def cfgSpaceAllow : CleanerConfig := ⟨500, [], [ruleSpace]⟩

/-- Rule `starts_with "git commit"`, case-insensitive, from the spec examples. -/
def ruleGitCommit : FilterRule := ⟨"git commit".toList, "starts_with", false, none⟩

/-- Configuration with one ignore (force-keep) rule. -/
def cfgGit : CleanerConfig := ⟨500, [ruleGitCommit], []⟩

/-- Configuration for the `C6` witness: force-keep rule and `max_length = 1`. -/
def cfgGitShort : CleanerConfig := ⟨1, [ruleGitCommit], []⟩

/-- A rule built with an unknown match type; the source accepts it at
construction time. -/
def bogusRule : FilterRule := ⟨['x'], "bogus", false, none⟩

/-- State after `cfgGit` has processed and kept `": 1:0;git commit -m x"`. -/
def stAfterGit : CleanerState :=
  ⟨["git commit -m x".toList], [": 1:0;git commit -m x".toList],
    { valid_entries := 1, ignored_kept := 1 }⟩

/-- State after `cfgNoRules` has processed and kept `": 1:0;echo hi"`. -/
def stAfterEcho : CleanerState :=
  ⟨["echo hi".toList], [": 1:0;echo hi".toList], { valid_entries := 1 }⟩

/-- Input lines for the duplicate-pair examples. -/
def linesDup : List Str := [": 1:0;echo hi".toList, ": 1:0;echo hi".toList]

/-- Result state of `runHistory cfgNoRules linesDup`. -/
def stDup : CleanerState :=
  ⟨["echo hi".toList], [": 1:0;echo hi".toList], ⟨2, 2, 1, 0, 0, 0, 0, 0, 1⟩⟩

lemma mem_insertSeen {s : List Str} {x y : Str} :
    x ∈ insertSeen s y ↔ x = y ∨ x ∈ s := by
  unfold insertSeen
  split
  · constructor
    · exact fun h => Or.inr h
    · rintro (rfl | h) <;> assumption
  · simp [List.mem_cons]

/-- C1: the source's `re.match(r"^: (\d+:\d+);(.*)$", ...)` is applied to the
whole reassembled blob, where `.` cannot cross the embedded newline and `$`
cannot match before a non-final newline, so the spec's continuation example
`": 5:0;echo \\"` + continuation `": not-a-new-entry"` is classified as
malformed (counted in `malformed_removed`, no valid entry, nothing kept)
instead of parsing into one entry with an embedded newline. -/
theorem C1_continuation_blob_divergence :
    parse_history_entry (": 5:0;echo \\".toList ++ '\n' :: ": not-a-new-entry".toList) = none ∧
    (runHistory cfgNoRules [": 5:0;echo \\".toList, ": not-a-new-entry".toList]).map
        (fun st => (st.stats.malformed_removed, st.stats.valid_entries, st.cleaned_entries))
      = .ok (1, 0, []) := by
  constructor
  · decide
  · decide

/-- C5 counterexample: constructing a `FilterRule` with the unknown match mode
`"bogus"` succeeds (construction validates only regex patterns), and `matches`
then raises the unknown-match-type `ValueError` at call time — contradicting
the claim that construction rejects unknown modes and `matches` never raises. -/
theorem C5_unknown_mode_counterexample :
    mkFilterRule ['x'] "bogus" false noCompile = .ok bogusRule ∧
    bogusRule.matches ['y'] = .error ("Unknown match type: bogus") :=
  ⟨rfl, rfl⟩

/-- C3 counterexample: for the entry `": 5:0; "` (whitespace-only command) under
one allow rule `contains " "`, the source checks the allow rules on the raw
command before ever trimming, so the entry is dropped as an allow-rule match
(`allowed_removed = 1`) and not via the Empty path (`pattern_removed = 0`) —
contradicting the claim that emptiness is decided first. -/
theorem C3_empty_not_first_counterexample :
    (processEntry cfgSpaceAllow {} ": 5:0; ".toList).map
        (fun st => (st.stats.allowed_removed, st.stats.pattern_removed))
      = .ok (1, 0) := by
  decide

/-- C4 counterexample: with the case-insensitive force-keep rule
`starts_with "git commit"`, after `": 1:0;git commit -m x"` is kept, the entry
`": 2:0; git commit -m x"` (leading whitespace) is dropped as a duplicate
(`duplicates_removed = 1`, only one kept entry) even though its trimmed form
matches the force-keep rule — contradicting the claim that such an entry gets
`IgnoreRuleMatch` and bypasses the duplicate check. -/
theorem C4_trimmed_ignore_counterexample :
    (processEntries cfgGit {} [": 1:0;git commit -m x".toList, ": 2:0; git commit -m x".toList]).map
        (fun st => (st.stats.duplicates_removed, st.stats.ignored_kept, st.cleaned_entries.length))
      = .ok (1, 1, 1) := by
  decide

/-- C2: for every parsed entry whose command matches an allow (force-remove)
rule and also an ignore (force-keep) rule, `_process_entry` checks the allow
rules first, so the entry is dropped with `allowed_removed` incremented and is
not appended to the output (in particular `ignored_kept` is unchanged): the
decision is `AllowRuleMatch`, never `IgnoreRuleMatch`. -/
theorem C2_allow_precedes_ignore (cfg : CleanerConfig) (st : CleanerState)
    (ts c e : Str)
    (hp : parse_history_entry e = some (ts, c))
    (ha : check_allow_rules cfg c = .ok true)
    (_hi : check_ignore_rules cfg c = .ok true) :
    processEntry cfg st e = .ok { st with stats := { st.stats with
      valid_entries := st.stats.valid_entries + 1,
      allowed_removed := st.stats.allowed_removed + 1 } } := by
  simp [processEntry, hp, ha]

/-- Witness for `C2_allow_precedes_ignore` at the entry `": 1:0;x"` under a
configuration whose allow list and ignore list both contain a rule matching
`"x"`. -/
theorem C2_allow_precedes_ignore_witness :
    check_allow_rules cfgBoth ['x'] = .ok true ∧
    check_ignore_rules cfgBoth ['x'] = .ok true ∧
    (processEntry cfgBoth {} ": 1:0;x".toList).map
      (fun s => (s.stats.allowed_removed, s.stats.ignored_kept, s.cleaned_entries)) = .ok (1, 0, []) := by
  refine ⟨by decide, by decide, ?_⟩
  rw [C2_allow_precedes_ignore cfgBoth {} "1:0".toList ['x'] ": 1:0;x".toList
    (by decide) (by decide) (by decide)]
  rfl

/-- C6: a parsed entry whose command matches an ignore (force-keep) rule and no
allow rule is kept with `ignored_kept` incremented and its formatted line
appended, for every state and configuration — in particular even when the
command is longer than `max_command_length`, matches a noise pattern, or has
its normalized form already in the seen set, since none of those checks is
reached on this path. -/
theorem C6_ignore_bypass (cfg : CleanerConfig) (st : CleanerState)
    (ts c e : Str)
    (hp : parse_history_entry e = some (ts, c))
    (ha : check_allow_rules cfg c = .ok false)
    (hi : check_ignore_rules cfg c = .ok true) :
    processEntry cfg st e = .ok { st with
      seen_commands := insertSeen st.seen_commands (normalize_command c),
      cleaned_entries := st.cleaned_entries ++ [fmtEntry ts c],
      stats := { st.stats with
        valid_entries := st.stats.valid_entries + 1,
        ignored_kept := st.stats.ignored_kept + 1 } } := by
  simp [processEntry, hp, ha, hi]

/-- Witness for `C6_ignore_bypass`: the spec example `": 5:0;git commit -m x"`
with force-keep rule `starts_with "git commit"` and `max_length = 1` is kept
(`ignored_kept = 1`, entry appended, `too_long_removed = 0`), not dropped as
too long. -/
theorem C6_ignore_bypass_witness :
    check_allow_rules cfgGitShort "git commit -m x".toList = .ok false ∧
    check_ignore_rules cfgGitShort "git commit -m x".toList = .ok true ∧
    (1 : Int) < ("git commit -m x".toList.length : Int) ∧
    (processEntry cfgGitShort {} ": 5:0;git commit -m x".toList).map
      (fun s => (s.stats.ignored_kept, s.stats.too_long_removed, s.cleaned_entries))
      = .ok (1, 0, [": 5:0;git commit -m x".toList]) := by
  refine ⟨by decide, by decide, by decide, ?_⟩
  rw [C6_ignore_bypass cfgGitShort {} "5:0".toList "git commit -m x".toList
    ": 5:0;git commit -m x".toList (by decide) (by decide) (by decide)]
  rfl

/-- C3 amended: the emptiness check runs only inside
`is_command_worth_keeping`, after `_process_entry` has already checked the
allow and ignore rules on the raw command; a parsed entry whose command is
empty after trimming and which matches no allow and no ignore rule is dropped
with reason `empty`, counted under `pattern_removed`. -/
theorem C3_empty_after_rules (cfg : CleanerConfig) (st : CleanerState)
    (ts c e : Str)
    (hp : parse_history_entry e = some (ts, c))
    (hstrip : pyStrip c = [])
    (ha : check_allow_rules cfg c = .ok false)
    (hi : check_ignore_rules cfg c = .ok false) :
    processEntry cfg st e = .ok { st with stats := { st.stats with
      valid_entries := st.stats.valid_entries + 1,
      pattern_removed := st.stats.pattern_removed + 1 } } := by
  simp [processEntry, hp, ha, hi, is_command_worth_keeping, hstrip]

/-- Witness for `C3_empty_after_rules` at the whitespace-command entry
`": 5:0; "` under the rule-free configuration. -/
theorem C3_empty_after_rules_witness :
    pyStrip [' '] = [] ∧
    check_allow_rules cfgNoRules [' '] = .ok false ∧
    check_ignore_rules cfgNoRules [' '] = .ok false ∧
    (processEntry cfgNoRules {} ": 5:0; ".toList).map
      (fun s => (s.stats.pattern_removed, s.stats.allowed_removed, s.cleaned_entries))
      = .ok (1, 0, []) := by
  refine ⟨by decide, by decide, by decide, ?_⟩
  rw [C3_empty_after_rules cfgNoRules {} "5:0".toList [' '] ": 5:0; ".toList
    (by decide) (by decide) (by decide) (by decide)]
  rfl

/-- C4 amended: `_process_entry` evaluates the allow and ignore rules on the
raw, untrimmed command; only the helper `is_command_worth_keeping` re-checks
them on the trimmed command.  An entry whose raw command matches no rule but
whose trimmed command matches an ignore rule is therefore not kept
unconditionally: it still reaches the duplicate check, is dropped as
`Duplicate` when its normalized command was already seen, and is kept
otherwise. -/
theorem C4_raw_rule_checks (cfg : CleanerConfig) (st : CleanerState)
    (ts c e : Str)
    (hp : parse_history_entry e = some (ts, c))
    (ha : check_allow_rules cfg c = .ok false)
    (hi : check_ignore_rules cfg c = .ok false)
    (hne : pyStrip c ≠ [])
    (hsa : checkRules cfg.allow_rules (pyStrip c) = .ok false)
    (hsi : checkRules cfg.ignore_rules (pyStrip c) = .ok true) :
    processEntry cfg st e = .ok (if normalize_command c ∈ st.seen_commands then
      { st with stats := { st.stats with
        valid_entries := st.stats.valid_entries + 1,
        duplicates_removed := st.stats.duplicates_removed + 1 } }
    else
      { st with
        seen_commands := insertSeen st.seen_commands (normalize_command c),
        cleaned_entries := st.cleaned_entries ++ [fmtEntry ts c],
        stats := { st.stats with valid_entries := st.stats.valid_entries + 1 } }) := by
  simp only [processEntry, hp, ha, hi, is_command_worth_keeping, hne, hsa, hsi,
    if_neg hne]
  split <;> simp_all
  exact (apply_ite Except.ok _ _ _).symm

/-- Witness for `C4_raw_rule_checks`: after `": 1:0;git commit -m x"` was kept,
the leading-whitespace entry `": 2:0; git commit -m x"` (trimmed form matches
the force-keep rule, raw form does not) is dropped as a duplicate. -/
theorem C4_raw_rule_checks_witness :
    check_ignore_rules cfgGit " git commit -m x".toList = .ok false ∧
    checkRules cfgGit.ignore_rules (pyStrip " git commit -m x".toList) = .ok true ∧
    normalize_command " git commit -m x".toList ∈ stAfterGit.seen_commands ∧
    (processEntry cfgGit stAfterGit ": 2:0; git commit -m x".toList).map
      (fun s => (s.stats.duplicates_removed, s.cleaned_entries.length)) = .ok (1, 1) := by
  refine ⟨by decide, by decide, by decide, ?_⟩
  rw [C4_raw_rule_checks cfgGit stAfterGit "2:0".toList " git commit -m x".toList
    ": 2:0; git commit -m x".toList (by decide) (by decide) (by decide) (by decide)
    (by decide) (by decide)]
  rfl

/-- C5 amended: constructing a rule with an unknown (non-regex) match mode
succeeds — construction validates only regex patterns — and for such a rule
`matches` raises the unknown-match-type `ValueError` at call time. -/
theorem C5_unknown_mode_call_time (pattern : Str) (mt : String) (cs : Bool)
    (compile : Str → Bool → Option (Str → Bool)) (cmd : Str)
    (hmt : strToLower mt ≠ "regex") :
    mkFilterRule pattern mt cs compile = .ok ⟨pattern, strToLower mt, cs, none⟩ ∧
    (strToLower mt ≠ "exact" → strToLower mt ≠ "contains" →
      strToLower mt ≠ "starts_with" → strToLower mt ≠ "ends_with" →
      FilterRule.matches ⟨pattern, strToLower mt, cs, none⟩ cmd =
        .error ("Unknown match type: " ++ strToLower mt)) := by
  constructor
  · simp [mkFilterRule, hmt]
  · intro h1 h2 h3 h4
    simp [FilterRule.matches, h1, h2, h3, h4, hmt]

/-- Witness for `C5_unknown_mode_call_time` at the unknown mode `"bogus"`. -/
theorem C5_unknown_mode_call_time_witness :
    mkFilterRule ['x'] "bogus" false noCompile = .ok ⟨['x'], strToLower "bogus", false, none⟩ ∧
    FilterRule.matches ⟨['x'], strToLower "bogus", false, none⟩ ['y'] =
      .error ("Unknown match type: " ++ strToLower "bogus") :=
  ⟨(C5_unknown_mode_call_time ['x'] "bogus" false noCompile ['y'] (by decide)).1,
   (C5_unknown_mode_call_time ['x'] "bogus" false noCompile ['y'] (by decide)).2
     (by decide) (by decide) (by decide) (by decide)⟩

lemma takeWhile_all_append {p : Char → Bool} {l : List Char} {b : Char} {r : List Char}
    (hl : ∀ a ∈ l, p a = true) (hb : p b = false) :
    (l ++ b :: r).takeWhile p = l := by
  induction l with
  | nil => simp [List.takeWhile_cons, hb]
  | cons x xs ih =>
    have hx : p x = true := hl x (List.mem_cons_self x xs)
    simp only [List.cons_append, List.takeWhile_cons_of_pos hx]
    exact congrArg (x :: ·) (ih fun a ha => hl a (List.mem_cons_of_mem x ha))

lemma dropWhile_all_append {p : Char → Bool} {l : List Char} {b : Char} {r : List Char}
    (hl : ∀ a ∈ l, p a = true) (hb : p b = false) :
    (l ++ b :: r).dropWhile p = b :: r := by
  induction l with
  | nil => simp [List.dropWhile_cons, hb]
  | cons x xs ih =>
    have hx : p x = true := hl x (List.mem_cons_self x xs)
    simp only [List.cons_append, List.dropWhile_cons_of_pos hx]
    exact ih fun a ha => hl a (List.mem_cons_of_mem x ha)

lemma matchDotStarEnd_some {tail c : Str} (h : matchDotStarEnd tail = some c) :
    '\n' ∉ c ∧ (tail = c ∨ tail = c ++ ['\n']) := by
  unfold matchDotStarEnd at h
  split at h
  · split at h
    · rename_i hmem hcond
      obtain ⟨hlast, hnotin⟩ := hcond
      obtain ⟨ys, rfl⟩ := List.getLast?_eq_some_iff.mp hlast
      simp only [List.dropLast_concat, Option.some.injEq] at h
      subst h
      exact ⟨by simpa using hnotin, Or.inr rfl⟩
    · exact absurd h (by simp)
  · rename_i hmem
    cases h
    exact ⟨hmem, Or.inl rfl⟩

lemma parse_shape {b ts c : Str} (h : parse_history_entry b = some (ts, c)) :
    ∃ d1 d2 tail, d1 ≠ [] ∧ d2 ≠ [] ∧
      (∀ a ∈ d1, a.isDigit = true) ∧ (∀ a ∈ d2, a.isDigit = true) ∧
      ts = d1 ++ ':' :: d2 ∧ b = fmtEntry ts tail ∧ matchDotStarEnd tail = some c := by
  unfold parse_history_entry at h
  split at h
  · rename_i rest
    split at h
    · rename_i r2 hdrop
      split at h
      · rename_i tail hdrop2
        split at h
        · rename_i c' hmatch
          dsimp only at h
          split at h
          · exact absurd h (by simp)
          · rename_i hnil
            push_neg at hnil
            simp only [Option.some.injEq, Prod.mk.injEq] at h
            obtain ⟨hts, hc⟩ := h
            subst hts
            subst hc
            refine ⟨rest.takeWhile Char.isDigit, r2.takeWhile Char.isDigit, tail,
              hnil.1, hnil.2, fun a ha => List.mem_takeWhile_imp ha,
              fun a ha => List.mem_takeWhile_imp ha, rfl, ?_, hmatch⟩
            have hrest : rest = rest.takeWhile Char.isDigit ++ ':' :: r2 := by
              conv_lhs => rw [← List.takeWhile_append_dropWhile (p := Char.isDigit) (l := rest)]
              rw [hdrop]
            have hr2 : r2 = r2.takeWhile Char.isDigit ++ ';' :: tail := by
              conv_lhs => rw [← List.takeWhile_append_dropWhile (p := Char.isDigit) (l := r2)]
              rw [hdrop2]
            simp only [fmtEntry, List.cons.injEq, true_and]
            calc rest = List.takeWhile Char.isDigit rest ++ ':' :: r2 := hrest
              _ = List.takeWhile Char.isDigit rest ++ ':' ::
                    (List.takeWhile Char.isDigit r2 ++ ';' :: tail) := by rw [← hr2]
              _ = (List.takeWhile Char.isDigit rest ++ ':' :: List.takeWhile Char.isDigit r2)
                    ++ ';' :: tail := by simp
        · dsimp only at h
          rw [ite_self] at h
          exact Option.noConfusion h
      · exact absurd h (by simp)
    · exact absurd h (by simp)
  · exact absurd h (by simp)

lemma parse_fmt {d1 d2 c : Str} (h1 : d1 ≠ []) (h2 : d2 ≠ [])
    (hd1 : ∀ a ∈ d1, a.isDigit = true) (hd2 : ∀ a ∈ d2, a.isDigit = true)
    (hc : '\n' ∉ c) :
    parse_history_entry (fmtEntry (d1 ++ ':' :: d2) c) = some (d1 ++ ':' :: d2, c) := by
  have hrw : (d1 ++ ':' :: d2) ++ ';' :: c = d1 ++ ':' :: (d2 ++ ';' :: c) := by simp
  have hcolon : Char.isDigit ':' = false := by decide
  have hsemi : Char.isDigit ';' = false := by decide
  simp only [fmtEntry, hrw, parse_history_entry,
    takeWhile_all_append hd1 hcolon, dropWhile_all_append hd1 hcolon,
    takeWhile_all_append hd2 hsemi, dropWhile_all_append hd2 hsemi]
  rw [if_neg (by simp [h1, h2])]
  unfold matchDotStarEnd
  rw [if_neg hc]

lemma parse_roundtrip {b ts c : Str} (h : parse_history_entry b = some (ts, c)) :
    parse_history_entry (fmtEntry ts c) = some (ts, c) := by
  obtain ⟨d1, d2, tail, h1, h2, hd1, hd2, hts, _, hmatch⟩ := parse_shape h
  obtain ⟨hnl, _⟩ := matchDotStarEnd_some hmatch
  rw [hts]
  exact parse_fmt h1 h2 hd1 hd2 hnl

lemma processEntry_kept {cfg : CleanerConfig} {st st' : CleanerState} {e : Str}
    (hrun : processEntry cfg st e = .ok st')
    (hne : st'.cleaned_entries ≠ st.cleaned_entries) :
    ∃ ts c, parse_history_entry e = some (ts, c) ∧
      st'.cleaned_entries = st.cleaned_entries ++ [fmtEntry ts c] ∧
      st'.seen_commands = insertSeen st.seen_commands (normalize_command c) := by
  cases hpa : parse_history_entry e with
  | none =>
    simp only [processEntry, hpa] at hrun
    cases Except.ok.inj hrun
    simp_all
  | some p =>
    obtain ⟨ts, c⟩ := p
    refine ⟨ts, c, rfl, ?_⟩
    cases hal : check_allow_rules cfg c with
    | error err => simp [processEntry, hpa, hal] at hrun
    | ok ba =>
      cases ba with
      | true =>
        simp only [processEntry, hpa, hal] at hrun
        cases Except.ok.inj hrun
        simp_all
      | false =>
        cases hig : check_ignore_rules cfg c with
        | error err => simp [processEntry, hpa, hal, hig] at hrun
        | ok bi =>
          cases bi with
          | true =>
            simp only [processEntry, hpa, hal, hig] at hrun
            cases Except.ok.inj hrun
            exact ⟨rfl, rfl⟩
          | false =>
            cases hw : is_command_worth_keeping cfg c with
            | error err => simp [processEntry, hpa, hal, hig, hw] at hrun
            | ok pr =>
              obtain ⟨keep, reason⟩ := pr
              cases keep with
              | true =>
                by_cases hmem : normalize_command c ∈ st.seen_commands
                · simp only [processEntry, hpa, hal, hig, hw, if_pos hmem] at hrun
                  cases Except.ok.inj hrun
                  simp_all
                · simp only [processEntry, hpa, hal, hig, hw, if_neg hmem] at hrun
                  cases Except.ok.inj hrun
                  exact ⟨rfl, rfl⟩
              | false =>
                by_cases hr : reason = "too_long" <;>
                  [simp only [processEntry, hpa, hal, hig, hw, if_pos hr] at hrun;
                   simp only [processEntry, hpa, hal, hig, hw, if_neg hr] at hrun] <;>
                  (cases Except.ok.inj hrun; simp_all)

/-- C9: every kept entry is appended as `": " + timestamp + ";" + command`
with the raw command preserved verbatim, and re-parsing that formatted line
yields the identical timestamp token and command. -/
theorem C9_round_trip (cfg : CleanerConfig) (st st' : CleanerState) (e k : Str)
    (hrun : processEntry cfg st e = .ok st')
    (hk : st'.cleaned_entries = st.cleaned_entries ++ [k]) :
    ∃ ts c, parse_history_entry e = some (ts, c) ∧ k = fmtEntry ts c ∧
      parse_history_entry k = some (ts, c) := by
  have hne : st'.cleaned_entries ≠ st.cleaned_entries := by simp [hk]
  obtain ⟨ts, c, hp, hcl, _⟩ := processEntry_kept hrun hne
  have hkf : k = fmtEntry ts c := by
    rw [hk] at hcl
    exact (by simpa using hcl)
  exact ⟨ts, c, hp, hkf, hkf ▸ parse_roundtrip hp⟩

/-- Witness for `C9_round_trip`: the kept entry `": 1:0;echo hi"` re-parses to
the identical timestamp token and command. -/
theorem C9_round_trip_witness :
    processEntry cfgNoRules {} ": 1:0;echo hi".toList = .ok stAfterEcho ∧
    (∃ ts c, parse_history_entry ": 1:0;echo hi".toList = some (ts, c) ∧
      ": 1:0;echo hi".toList = fmtEntry ts c ∧
      parse_history_entry ": 1:0;echo hi".toList = some (ts, c)) := by
  refine ⟨by decide, ?_⟩
  have h := C9_round_trip cfgNoRules {} stAfterEcho ": 1:0;echo hi".toList
    ": 1:0;echo hi".toList (by decide) (by decide)
  exact h

lemma processEntry_acct {cfg : CleanerConfig} {st st' : CleanerState} {e : Str}
    (h : Acct st) (hrun : processEntry cfg st e = .ok st') : Acct st' := by
  cases hpa : parse_history_entry e with
  | none =>
    simp only [processEntry, hpa] at hrun
    cases Except.ok.inj hrun
    simp_all [Acct]
  | some p =>
    obtain ⟨ts, c⟩ := p
    cases hal : check_allow_rules cfg c with
    | error err => simp [processEntry, hpa, hal] at hrun
    | ok ba =>
      cases ba with
      | true =>
        simp only [processEntry, hpa, hal] at hrun
        cases Except.ok.inj hrun
        simp_all [Acct]
        omega
      | false =>
        cases hig : check_ignore_rules cfg c with
        | error err => simp [processEntry, hpa, hal, hig] at hrun
        | ok bi =>
          cases bi with
          | true =>
            simp only [processEntry, hpa, hal, hig] at hrun
            cases Except.ok.inj hrun
            simp_all [Acct]
            omega
          | false =>
            cases hw : is_command_worth_keeping cfg c with
            | error err => simp [processEntry, hpa, hal, hig, hw] at hrun
            | ok pr =>
              obtain ⟨keep, reason⟩ := pr
              cases keep with
              | true =>
                by_cases hmem : normalize_command c ∈ st.seen_commands
                · simp only [processEntry, hpa, hal, hig, hw, if_pos hmem] at hrun
                  cases Except.ok.inj hrun
                  simp_all [Acct]
                  omega
                · simp only [processEntry, hpa, hal, hig, hw, if_neg hmem] at hrun
                  cases Except.ok.inj hrun
                  simp_all [Acct]
                  omega
              | false =>
                by_cases hr : reason = "too_long" <;>
                  [simp only [processEntry, hpa, hal, hig, hw, if_pos hr] at hrun;
                   simp only [processEntry, hpa, hal, hig, hw, if_neg hr] at hrun] <;>
                  (cases Except.ok.inj hrun; simp_all [Acct]; omega)

lemma historyLoop_nil (cfg : CleanerConfig) (cur : Str) (st : CleanerState) :
    historyLoop cfg [] cur st =
      if cur ≠ [] then processEntry cfg st cur else .ok st := rfl

lemma historyLoop_cons (cfg : CleanerConfig) (raw : Str) (rest : List Str)
    (cur : Str) (st : CleanerState) :
    historyLoop cfg (raw :: rest) cur st =
      if isEntryStart (rstripNlCr raw) then
        if cur ≠ [] then
          match processEntry cfg st cur with
          | .error e => .error e
          | .ok st' => historyLoop cfg rest (rstripNlCr raw) st'
        else historyLoop cfg rest (rstripNlCr raw) st
      else
        if cur ≠ [] then historyLoop cfg rest (cur ++ '\n' :: rstripNlCr raw) st
        else
          historyLoop cfg rest cur
            { st with stats :=
              { st.stats with malformed_removed := st.stats.malformed_removed + 1 } } := rfl

lemma runHistory_eq (cfg : CleanerConfig) (lines : List Str) :
    runHistory cfg lines =
      match historyLoop cfg lines [] { stats := { total_lines := lines.length } } with
      | .error e => .error e
      | .ok st =>
        .ok { st with stats :=
          { st.stats with final_entries := st.cleaned_entries.length } } := rfl

lemma historyLoop_acct {cfg : CleanerConfig} :
    ∀ (lines : List Str) (cur : Str) (st st' : CleanerState),
      Acct st → historyLoop cfg lines cur st = .ok st' → Acct st' := by
  intro lines
  induction lines with
  | nil =>
    intro cur st st' h hrun
    rw [historyLoop_nil] at hrun
    split at hrun
    · exact processEntry_acct h hrun
    · cases Except.ok.inj hrun
      exact h
  | cons raw rest ih =>
    intro cur st st' h hrun
    rw [historyLoop_cons] at hrun
    by_cases hstart : isEntryStart (rstripNlCr raw) = true
    · rw [if_pos hstart] at hrun
      by_cases hcur : cur ≠ []
      · rw [if_pos hcur] at hrun
        cases hpe : processEntry cfg st cur with
        | error err => rw [hpe] at hrun; cases hrun
        | ok st1 =>
          rw [hpe] at hrun
          exact ih _ _ _ (processEntry_acct h hpe) hrun
      · rw [if_neg hcur] at hrun
        exact ih _ _ _ h hrun
    · rw [if_neg hstart] at hrun
      by_cases hcur : cur ≠ []
      · rw [if_pos hcur] at hrun
        exact ih _ _ _ h hrun
      · rw [if_neg hcur] at hrun
        refine ih _ _ _ ?_ hrun
        simp_all [Acct]

/-- C10: at the end of every successful run,
`final_entries = valid_entries - allowed_removed - too_long_removed -
pattern_removed - duplicates_removed`: every parsed entry is counted by
exactly one of these removal counters or appears in the kept output
(`malformed_removed` does not enter the equation). -/
theorem C10_stats_accounting (cfg : CleanerConfig) (lines : List Str)
    (st : CleanerState) (h : runHistory cfg lines = .ok st) :
    st.stats.valid_entries = st.stats.final_entries + st.stats.allowed_removed +
      st.stats.too_long_removed + st.stats.pattern_removed + st.stats.duplicates_removed ∧
    st.stats.final_entries = st.stats.valid_entries - st.stats.allowed_removed -
      st.stats.too_long_removed - st.stats.pattern_removed - st.stats.duplicates_removed := by
  rw [runHistory_eq] at h
  cases hl : historyLoop cfg lines []
      { stats := { total_lines := lines.length } } with
  | error err => rw [hl] at h; cases h
  | ok stL =>
    rw [hl] at h
    cases Except.ok.inj h
    have hacct : Acct stL :=
      historyLoop_acct lines [] { stats := { total_lines := lines.length } } stL
        (by simp [Acct]) hl
    simp only [Acct] at hacct
    constructor <;> simp <;> omega

/-- Witness for `C10_stats_accounting` on the duplicate-pair input: 2 valid
entries, 1 duplicate removed, 1 final entry. -/
theorem C10_stats_accounting_witness :
    runHistory cfgNoRules linesDup = .ok stDup ∧
    (stDup.stats.valid_entries = stDup.stats.final_entries + stDup.stats.allowed_removed +
      stDup.stats.too_long_removed + stDup.stats.pattern_removed + stDup.stats.duplicates_removed ∧
    stDup.stats.final_entries = stDup.stats.valid_entries - stDup.stats.allowed_removed -
      stDup.stats.too_long_removed - stDup.stats.pattern_removed - stDup.stats.duplicates_removed) :=
  ⟨by decide, C10_stats_accounting cfgNoRules linesDup stDup (by decide)⟩

lemma processEntry_cases {cfg : CleanerConfig} {st st' : CleanerState} {e : Str}
    (hrun : processEntry cfg st e = .ok st') :
    (st'.seen_commands = st.seen_commands ∧ st'.cleaned_entries = st.cleaned_entries) ∨
    (∃ ts c, parse_history_entry e = some (ts, c) ∧
      check_allow_rules cfg c = .ok false ∧
      (check_ignore_rules cfg c = .ok true ∨
        (check_ignore_rules cfg c = .ok false ∧
          (∃ r, is_command_worth_keeping cfg c = .ok (true, r)) ∧
          normalize_command c ∉ st.seen_commands)) ∧
      st'.seen_commands = insertSeen st.seen_commands (normalize_command c) ∧
      st'.cleaned_entries = st.cleaned_entries ++ [fmtEntry ts c]) := by
  cases hpa : parse_history_entry e with
  | none =>
    simp only [processEntry, hpa] at hrun
    cases Except.ok.inj hrun
    exact Or.inl ⟨rfl, rfl⟩
  | some p =>
    obtain ⟨ts, c⟩ := p
    cases hal : check_allow_rules cfg c with
    | error err => simp [processEntry, hpa, hal] at hrun
    | ok ba =>
      cases ba with
      | true =>
        simp only [processEntry, hpa, hal] at hrun
        cases Except.ok.inj hrun
        exact Or.inl ⟨rfl, rfl⟩
      | false =>
        cases hig : check_ignore_rules cfg c with
        | error err => simp [processEntry, hpa, hal, hig] at hrun
        | ok bi =>
          cases bi with
          | true =>
            simp only [processEntry, hpa, hal, hig] at hrun
            cases Except.ok.inj hrun
            exact Or.inr ⟨ts, c, rfl, hal, Or.inl hig, rfl, rfl⟩
          | false =>
            cases hw : is_command_worth_keeping cfg c with
            | error err => simp [processEntry, hpa, hal, hig, hw] at hrun
            | ok pr =>
              obtain ⟨keep, reason⟩ := pr
              cases keep with
              | true =>
                by_cases hmem : normalize_command c ∈ st.seen_commands
                · simp only [processEntry, hpa, hal, hig, hw, if_pos hmem] at hrun
                  cases Except.ok.inj hrun
                  exact Or.inl ⟨rfl, rfl⟩
                · simp only [processEntry, hpa, hal, hig, hw, if_neg hmem] at hrun
                  cases Except.ok.inj hrun
                  exact Or.inr ⟨ts, c, rfl, hal, Or.inr ⟨hig, ⟨reason, hw⟩, hmem⟩, rfl, rfl⟩
              | false =>
                by_cases hr : reason = "too_long" <;>
                  [simp only [processEntry, hpa, hal, hig, hw, if_pos hr] at hrun;
                   simp only [processEntry, hpa, hal, hig, hw, if_neg hr] at hrun] <;>
                  (cases Except.ok.inj hrun; exact Or.inl ⟨rfl, rfl⟩)

lemma processEntry_seen_mono {cfg : CleanerConfig} {st st' : CleanerState} {e x : Str}
    (hrun : processEntry cfg st e = .ok st') (hx : x ∈ st.seen_commands) :
    x ∈ st'.seen_commands := by
  rcases processEntry_cases hrun with ⟨hs, _⟩ | ⟨_, _, _, _, _, hs, _⟩ <;> rw [hs]
  · exact hx
  · exact mem_insertSeen.mpr (Or.inr hx)

lemma processEntries_seen_mono {cfg : CleanerConfig} :
    ∀ {es : List Str} {st st' : CleanerState} {x : Str},
      processEntries cfg st es = .ok st' → x ∈ st.seen_commands → x ∈ st'.seen_commands := by
  intro es
  induction es with
  | nil =>
    intro st st' x hrun hx
    cases Except.ok.inj hrun
    exact hx
  | cons e es ih =>
    intro st st' x hrun hx
    simp only [processEntries] at hrun
    cases hpe : processEntry cfg st e with
    | error err => rw [hpe] at hrun; cases hrun
    | ok st1 =>
      rw [hpe] at hrun
      exact ih hrun (processEntry_seen_mono hpe hx)

/-- C7: if an entry `e1` with command `c1` is kept (plain keep or ignore-rule
keep), then after any further entries are processed, a later entry `e2` whose
command normalizes to the same key, matches no allow rule and no ignore rule
(raw), and passes the empty, rule, length, and noise checks of
`is_command_worth_keeping`, is dropped as a duplicate: only the first
occurrence is kept. -/
theorem C7_duplicate_second_dropped (cfg : CleanerConfig)
    (st0 stA stB : CleanerState) (between : List Str) (e1 e2 ts1 c1 ts2 c2 : Str)
    (hp1 : parse_history_entry e1 = some (ts1, c1))
    (hrunA : processEntry cfg st0 e1 = .ok stA)
    (hkept : stA.cleaned_entries ≠ st0.cleaned_entries)
    (hbetween : processEntries cfg stA between = .ok stB)
    (hp2 : parse_history_entry e2 = some (ts2, c2))
    (heq : normalize_command c2 = normalize_command c1)
    (ha2 : check_allow_rules cfg c2 = .ok false)
    (hi2 : check_ignore_rules cfg c2 = .ok false)
    (hw2 : is_command_worth_keeping cfg c2 = .ok (true, "")) :
    processEntry cfg stB e2 = .ok { stB with stats := { stB.stats with
      valid_entries := stB.stats.valid_entries + 1,
      duplicates_removed := stB.stats.duplicates_removed + 1 } } := by
  have hmem : normalize_command c2 ∈ stB.seen_commands := by
    rcases processEntry_cases hrunA with ⟨_, hcl⟩ | ⟨ts', c', hp', _, _, hs, _⟩
    · exact absurd hcl hkept
    · have hcc : c' = c1 := by
        rw [hp1] at hp'
        exact ((Prod.mk.injEq _ _ _ _ ▸ Option.some.inj hp').2).symm
      have hA : normalize_command c2 ∈ stA.seen_commands := by
        rw [hs, heq, ← hcc]
        exact mem_insertSeen.mpr (Or.inl rfl)
      exact processEntries_seen_mono hbetween hA
  simp [processEntry, hp2, ha2, hi2, hw2, hmem]

/-- Witness for `C7_duplicate_second_dropped`: after `": 1:0;echo hi"` is kept,
the later entry `": 2:0;echo  hi"` (double space, same normalization) is
dropped as a duplicate. -/
theorem C7_duplicate_second_dropped_witness :
    processEntry cfgNoRules {} ": 1:0;echo hi".toList = .ok stAfterEcho ∧
    normalize_command "echo  hi".toList = normalize_command "echo hi".toList ∧
    is_command_worth_keeping cfgNoRules "echo  hi".toList = .ok (true, "") ∧
    (processEntry cfgNoRules stAfterEcho ": 2:0;echo  hi".toList).map
      (fun s => (s.stats.duplicates_removed, s.cleaned_entries.length)) = .ok (1, 1) := by
  refine ⟨by decide, by decide, by decide, ?_⟩
  rw [C7_duplicate_second_dropped cfgNoRules {} stAfterEcho stAfterEcho []
    ": 1:0;echo hi".toList ": 2:0;echo  hi".toList "1:0".toList "echo hi".toList
    "2:0".toList "echo  hi".toList (by decide) (by decide) (by decide) rfl (by decide)
    (by decide) (by decide) (by decide) (by decide)]
  rfl

lemma containsSub_of_mem {a : Char} {l : Str} (h : a ∈ l) : containsSub l [a] = true := by
  induction l with
  | nil => cases h
  | cons c t ih =>
    simp only [containsSub, Bool.or_eq_true]
    rcases List.mem_cons.mp h with rfl | hmem
    · left
      simp [List.isPrefixOf]
    · exact Or.inr (ih hmem)

lemma isEntryStart_fmt (ts c : Str) : isEntryStart (fmtEntry ts c) = true := by
  simp only [isEntryStart, fmtEntry, Bool.and_eq_true]
  refine ⟨⟨?_, ?_⟩, ?_⟩
  · simp [startsWithL, List.isPrefixOf]
  · simp [containsSub, List.isPrefixOf]
  · exact containsSub_of_mem (by simp)

lemma dropWhile_idem {p : Char → Bool} (l : List Char) :
    (l.dropWhile p).dropWhile p = l.dropWhile p := by
  induction l with
  | nil => rfl
  | cons a t ih =>
    by_cases h : p a
    · simp [List.dropWhile_cons, h, ih]
    · simp [List.dropWhile_cons, h]

lemma rstrip_idem (s : Str) : rstripNlCr (rstripNlCr s) = rstripNlCr s := by
  simp [rstripNlCr, List.reverse_reverse, dropWhile_idem]

lemma rstrip_eq_self_of_getLast {l : Str} {a : Char}
    (h : l.getLast? = some a) (ha : (a == '\n' || a == '\r') = false) :
    rstripNlCr l = l := by
  obtain ⟨ys, rfl⟩ := List.getLast?_eq_some_iff.mp h
  simp [rstripNlCr, List.reverse_append, List.dropWhile_cons, ha]

lemma rstrip_id_getLast {l : Str} {a : Char} (hid : rstripNlCr l = l)
    (h : l.getLast? = some a) : (a == '\n' || a == '\r') = false := by
  cases hb : (a == '\n' || a == '\r') with
  | false => rfl
  | true =>
    exfalso
    obtain ⟨ys, rfl⟩ := List.getLast?_eq_some_iff.mp h
    have hlen := congrArg List.length hid
    have hsub := (List.dropWhile_sublist
      (l := ys.reverse) (fun c => c == '\n' || c == '\r')).length_le
    simp [rstripNlCr, List.reverse_append, List.dropWhile_cons, hb] at hlen
    rw [List.length_reverse] at hsub
    omega

lemma fmt_getLast_of_ne {ts c : Str} (hc : c ≠ []) :
    (fmtEntry ts c).getLast? = c.getLast? := by
  have hsplit : fmtEntry ts c = ((':' :: ' ' :: ts) ++ [';']) ++ c := by simp [fmtEntry]
  rw [hsplit, List.getLast?_append]
  cases hcl : c.getLast? with
  | none => exact absurd (List.getLast?_eq_none_iff.mp hcl) hc
  | some x => simp

lemma fmt_getLast_nil {ts : Str} : (fmtEntry ts []).getLast? = some ';' := by
  have hsplit : fmtEntry ts [] = (':' :: ' ' :: ts) ++ [';'] := by simp [fmtEntry]
  rw [hsplit]
  exact List.getLast?_concat _

lemma rstrip_fmt {ts c : Str} (hnl : '\n' ∉ c) (hcr : CmdOK c) :
    rstripNlCr (fmtEntry ts c) = fmtEntry ts c := by
  by_cases hc : c = []
  · subst hc
    exact rstrip_eq_self_of_getLast fmt_getLast_nil (by decide)
  · cases hcl : c.getLast? with
    | none => exact absurd (List.getLast?_eq_none_iff.mp hcl) hc
    | some a =>
      have ha1 : a ≠ '\n' := fun hh => hnl (hh ▸ List.mem_of_getLast?_eq_some hcl)
      have ha2 : a ≠ '\r' := fun hh => hcr (by rw [hcl, hh])
      refine rstrip_eq_self_of_getLast (a := a) ?_ ?_
      · rw [fmt_getLast_of_ne hc, hcl]
      · simp [ha1, ha2]

lemma blobOK_nil : BlobOK [] := by
  intro ts c h
  simp [parse_history_entry] at h

lemma blobOK_rstrip (raw : Str) : BlobOK (rstripNlCr raw) := by
  intro ts c hp
  obtain ⟨d1, d2, tail, h1, h2, hd1, hd2, hts, hb, hm⟩ := parse_shape hp
  obtain ⟨hnl, htail⟩ := matchDotStarEnd_some hm
  have hid : rstripNlCr (rstripNlCr raw) = rstripNlCr raw := rstrip_idem raw
  rcases htail with rfl | rfl
  · by_cases hc : tail = []
    · subst hc
      simp [CmdOK]
    · cases hcl : tail.getLast? with
      | none => exact absurd (List.getLast?_eq_none_iff.mp hcl) hc
      | some a =>
        have hlast : (rstripNlCr raw).getLast? = some a := by
          rw [hb, fmt_getLast_of_ne hc, hcl]
        have hne := rstrip_id_getLast hid hlast
        simp only [Bool.or_eq_false_iff, beq_eq_false_iff_ne, ne_eq] at hne
        simp [CmdOK, hcl, hne.2]
  · exfalso
    have hlast : (rstripNlCr raw).getLast? = some '\n' := by
      rw [hb, fmt_getLast_of_ne (by simp), List.getLast?_concat]
    have hne := rstrip_id_getLast hid hlast
    simp at hne

lemma blobOK_extend {cur l : Str} (hcur : BlobOK cur) (hl : rstripNlCr l = l) :
    BlobOK (cur ++ '\n' :: l) := by
  intro ts c hp
  obtain ⟨d1, d2, tail, h1, h2, hd1, hd2, hts, hb, hm⟩ := parse_shape hp
  obtain ⟨hnl, htail⟩ := matchDotStarEnd_some hm
  rcases htail with rfl | rfl
  · exfalso
    have hmem : '\n' ∈ fmtEntry ts tail := by
      rw [← hb]
      simp
    have hnd1 : '\n' ∉ d1 := fun hh => absurd (hd1 _ hh) (by decide)
    have hnd2 : '\n' ∉ d2 := fun hh => absurd (hd2 _ hh) (by decide)
    simp only [fmtEntry, hts, List.mem_cons, List.mem_append] at hmem
    simp [hnd1, hnd2, hnl, show ('\n' : Char) ≠ ':' from by decide,
      show ('\n' : Char) ≠ ' ' from by decide,
      show ('\n' : Char) ≠ ';' from by decide] at hmem
  · have hb2 : cur ++ '\n' :: l = fmtEntry ts c ++ ['\n'] := by
      rw [hb]
      simp [fmtEntry]
    by_cases hlnil : l = []
    · subst hlnil
      have hcur_eq : cur = fmtEntry ts c := by
        have hx : cur ++ ['\n'] = fmtEntry ts c ++ ['\n'] := by simpa using hb2
        exact List.append_cancel_right hx
      have hpc : parse_history_entry cur = some (ts, c) := by
        rw [hcur_eq, hts]
        exact parse_fmt h1 h2 hd1 hd2 hnl
      exact hcur ts c hpc
    · exfalso
      cases hgl : l.getLast? with
      | none => exact absurd (List.getLast?_eq_none_iff.mp hgl) hlnil
      | some a =>
        have h1' : (cur ++ '\n' :: l).getLast? = some a := by
          rw [List.getLast?_append]
          have : ('\n' :: l).getLast? = some a := by
            rw [show ('\n' :: l) = ['\n'] ++ l by rfl, List.getLast?_append, hgl]
            simp
          rw [this]
          simp
        have h2' : (cur ++ '\n' :: l).getLast? = some '\n' := by
          rw [hb2]
          exact List.getLast?_concat _
        have haeq : a = '\n' := by
          rw [h1'] at h2'
          exact Option.some.inj h2'
        have hne := rstrip_id_getLast hl hgl
        rw [haeq] at hne
        simp at hne

lemma EntryCond_congr {cfg : CleanerConfig} {p1 p2 : List Str} {k : Str}
    (hp : ∀ x, x ∈ p1 ↔ x ∈ p2) (h : EntryCond cfg p1 k) : EntryCond cfg p2 k := by
  obtain ⟨ts, c, h1, h2, h3, h4, h5⟩ := h
  refine ⟨ts, c, h1, h2, h3, h4, ?_⟩
  rcases h5 with h5 | ⟨hig, hw, hnin⟩
  · exact Or.inl h5
  · exact Or.inr ⟨hig, hw, fun hx => hnin ((hp _).mpr hx)⟩

lemma GoodFrom_append {cfg : CleanerConfig} :
    ∀ {ks : List Str} {prev : List Str} {k : Str}, GoodFrom cfg prev ks →
      EntryCond cfg (ks.map entryNorm ++ prev) k → GoodFrom cfg prev (ks ++ [k]) := by
  intro ks
  induction ks with
  | nil =>
    intro prev k _ hk
    exact ⟨EntryCond_congr (by simp) hk, trivial⟩
  | cons k' ks ih =>
    intro prev k hg hk
    obtain ⟨h1, h2⟩ := hg
    refine ⟨h1, ih h2 (EntryCond_congr ?_ hk)⟩
    intro x
    simp only [List.map_cons, List.mem_append, List.mem_cons]
    tauto

lemma processEntry_inv {cfg : CleanerConfig} {st st' : CleanerState} {e : Str}
    (hseen : SeenIff st) (hgood : GoodFrom cfg [] st.cleaned_entries)
    (hblob : BlobOK e) (hrun : processEntry cfg st e = .ok st') :
    SeenIff st' ∧ GoodFrom cfg [] st'.cleaned_entries := by
  rcases processEntry_cases hrun with ⟨hs, hc⟩ | ⟨ts, c, hp, hal, hkeep, hs, hc⟩
  · constructor
    · intro x
      rw [SeenIff] at hseen
      rw [hs, hc]
      exact hseen x
    · rw [hc]
      exact hgood
  · have hcmd : CmdOK c := hblob ts c hp
    obtain ⟨d1, d2, tail, h1, h2, hd1, hd2, hts, hb, hm⟩ := parse_shape hp
    obtain ⟨hnl, _⟩ := matchDotStarEnd_some hm
    have hpk : parse_history_entry (fmtEntry ts c) = some (ts, c) := parse_roundtrip hp
    have hnormk : entryNorm (fmtEntry ts c) = normalize_command c := by
      simp [entryNorm, hpk]
    constructor
    · intro x
      rw [hs, hc]
      rw [mem_insertSeen]
      simp only [List.map_append, List.map_cons, List.map_nil, List.mem_append,
        List.mem_cons, List.not_mem_nil, or_false, hnormk]
      rw [hseen x]
      tauto
    · rw [hc]
      refine GoodFrom_append hgood ⟨ts, c, hpk, rfl, rstrip_fmt hnl hcmd, hal, ?_⟩
      rcases hkeep with hig | ⟨hig, hw, hnin⟩
      · exact Or.inl hig
      · refine Or.inr ⟨hig, hw, ?_⟩
        intro hx
        apply hnin
        apply (hseen _).mpr
        simpa using hx

lemma historyLoop_inv {cfg : CleanerConfig} :
    ∀ (lines : List Str) (cur : Str) (st st' : CleanerState),
      SeenIff st → GoodFrom cfg [] st.cleaned_entries → BlobOK cur →
      historyLoop cfg lines cur st = .ok st' →
      SeenIff st' ∧ GoodFrom cfg [] st'.cleaned_entries := by
  intro lines
  induction lines with
  | nil =>
    intro cur st st' hseen hgood hblob hrun
    rw [historyLoop_nil] at hrun
    split at hrun
    · exact processEntry_inv hseen hgood hblob hrun
    · cases Except.ok.inj hrun
      exact ⟨hseen, hgood⟩
  | cons raw rest ih =>
    intro cur st st' hseen hgood hblob hrun
    rw [historyLoop_cons] at hrun
    by_cases hstart : isEntryStart (rstripNlCr raw) = true
    · rw [if_pos hstart] at hrun
      by_cases hcur : cur ≠ []
      · rw [if_pos hcur] at hrun
        cases hpe : processEntry cfg st cur with
        | error err => rw [hpe] at hrun; cases hrun
        | ok st1 =>
          rw [hpe] at hrun
          obtain ⟨hs1, hg1⟩ := processEntry_inv hseen hgood hblob hpe
          exact ih _ _ _ hs1 hg1 (blobOK_rstrip raw) hrun
      · rw [if_neg hcur] at hrun
        exact ih _ _ _ hseen hgood (blobOK_rstrip raw) hrun
    · rw [if_neg hstart] at hrun
      by_cases hcur : cur ≠ []
      · rw [if_pos hcur] at hrun
        exact ih _ _ _ hseen hgood (blobOK_extend hblob (rstrip_idem raw)) hrun
      · rw [if_neg hcur] at hrun
        refine ih _ _ _ ?_ ?_ hblob hrun
        · intro x
          exact hseen x
        · exact hgood

lemma runHistory_inv {cfg : CleanerConfig} {lines : List Str} {st : CleanerState}
    (h : runHistory cfg lines = .ok st) :
    SeenIff st ∧ GoodFrom cfg [] st.cleaned_entries := by
  rw [runHistory_eq] at h
  cases hl : historyLoop cfg lines [] { stats := { total_lines := lines.length } } with
  | error err => rw [hl] at h; cases h
  | ok stL =>
    rw [hl] at h
    cases Except.ok.inj h
    have hs0 : SeenIff { stats := { total_lines := lines.length } } := by
      intro x
      simp [SeenIff]
    have hg0 : GoodFrom cfg []
        ({ stats := { total_lines := lines.length } } : CleanerState).cleaned_entries :=
      trivial
    obtain ⟨hs, hg⟩ := historyLoop_inv lines []
      { stats := { total_lines := lines.length } } stL hs0 hg0 blobOK_nil hl
    exact ⟨hs, hg⟩

lemma goodFrom_entry_facts {cfg : CleanerConfig} :
    ∀ {ks prev : List Str}, GoodFrom cfg prev ks →
      ∀ k ∈ ks, rstripNlCr k = k ∧ isEntryStart k = true := by
  intro ks
  induction ks with
  | nil => intro prev _ k hk; cases hk
  | cons k' ks ih =>
    intro prev hg k hk
    obtain ⟨⟨ts, c, _, hfmt, hrs, _, _⟩, hrest⟩ := hg
    rcases List.mem_cons.mp hk with rfl | hmem
    · exact ⟨hrs, by rw [hfmt]; exact isEntryStart_fmt ts c⟩
    · exact ih hrest k hmem

lemma loop_as_entries {cfg : CleanerConfig} :
    ∀ (ks : List Str) (cur : Str) (st : CleanerState),
      (∀ k ∈ ks, rstripNlCr k = k ∧ isEntryStart k = true) → cur ≠ [] →
      historyLoop cfg ks cur st = processEntries cfg st (cur :: ks) := by
  intro ks
  induction ks with
  | nil =>
    intro cur st _ hcur
    rw [historyLoop_nil, if_pos hcur]
    cases hpe : processEntry cfg st cur <;> simp [processEntries, hpe]
  | cons k ks ih =>
    intro cur st hfacts hcur
    have hk := hfacts k (List.mem_cons_self k ks)
    have hkne : k ≠ [] := by
      intro hnil
      rw [hnil] at hk
      exact absurd hk.2 (by decide)
    rw [historyLoop_cons, hk.1, if_pos hk.2, if_pos hcur]
    simp only [processEntries]
    cases hpe : processEntry cfg st cur with
    | error err => rfl
    | ok st1 => exact ih k st1 (fun k' hk' => hfacts k' (List.mem_cons_of_mem _ hk')) hkne

lemma entries_no_dup {cfg : CleanerConfig} :
    ∀ (ks prev : List Str) (st : CleanerState),
      GoodFrom cfg prev ks → (∀ x, x ∈ st.seen_commands ↔ x ∈ prev) →
      ∃ st', processEntries cfg st ks = .ok st' ∧
        st'.stats.duplicates_removed = st.stats.duplicates_removed ∧
        (∀ x, x ∈ st'.seen_commands ↔ (x ∈ ks.map entryNorm ∨ x ∈ prev)) := by
  intro ks
  induction ks with
  | nil =>
    intro prev st _ hseen
    exact ⟨st, rfl, rfl, by simpa using hseen⟩
  | cons k ks ih =>
    intro prev st hgood hseen
    obtain ⟨⟨ts, c, hp, hfmt, hrs, hal, hdisj⟩, hrest⟩ := hgood
    have hnk : entryNorm k = normalize_command c := by simp [entryNorm, hp]
    have hig' : check_ignore_rules cfg c = .ok true ∨
        (check_ignore_rules cfg c = .ok false ∧
          (∃ r, is_command_worth_keeping cfg c = .ok (true, r)) ∧
          normalize_command c ∉ prev) := hdisj
    rcases hig' with hig | ⟨hig, ⟨r, hw⟩, hnin⟩
    · have hpe : processEntry cfg st k = .ok { st with
          seen_commands := insertSeen st.seen_commands (normalize_command c),
          cleaned_entries := st.cleaned_entries ++ [fmtEntry ts c],
          stats := { st.stats with
            valid_entries := st.stats.valid_entries + 1,
            ignored_kept := st.stats.ignored_kept + 1 } } := by
        simp [processEntry, hp, hal, hig]
      obtain ⟨st', hps, hdup, hs⟩ := ih (entryNorm k :: prev)
        { st with
          seen_commands := insertSeen st.seen_commands (normalize_command c),
          cleaned_entries := st.cleaned_entries ++ [fmtEntry ts c],
          stats := { st.stats with
            valid_entries := st.stats.valid_entries + 1,
            ignored_kept := st.stats.ignored_kept + 1 } }
        hrest
        (by
          intro x
          rw [show ({ st with
            seen_commands := insertSeen st.seen_commands (normalize_command c),
            cleaned_entries := st.cleaned_entries ++ [fmtEntry ts c],
            stats := { st.stats with
              valid_entries := st.stats.valid_entries + 1,
              ignored_kept := st.stats.ignored_kept + 1 } } : CleanerState).seen_commands
            = insertSeen st.seen_commands (normalize_command c) from rfl]
          rw [mem_insertSeen, hseen x, hnk]
          simp [List.mem_cons])
      refine ⟨st', ?_, ?_, ?_⟩
      · simp only [processEntries, hpe]
        exact hps
      · exact hdup
      · intro x
        rw [hs x]
        simp only [List.map_cons, List.mem_cons, List.mem_append]
        tauto
    · have hmem : normalize_command c ∉ st.seen_commands :=
        fun hx => hnin ((hseen _).mp hx)
      have hpe : processEntry cfg st k = .ok { st with
          seen_commands := insertSeen st.seen_commands (normalize_command c),
          cleaned_entries := st.cleaned_entries ++ [fmtEntry ts c],
          stats := { st.stats with
            valid_entries := st.stats.valid_entries + 1 } } := by
        simp [processEntry, hp, hal, hig, hw, hmem]
      obtain ⟨st', hps, hdup, hs⟩ := ih (entryNorm k :: prev)
        { st with
          seen_commands := insertSeen st.seen_commands (normalize_command c),
          cleaned_entries := st.cleaned_entries ++ [fmtEntry ts c],
          stats := { st.stats with
            valid_entries := st.stats.valid_entries + 1 } }
        hrest
        (by
          intro x
          rw [show ({ st with
            seen_commands := insertSeen st.seen_commands (normalize_command c),
            cleaned_entries := st.cleaned_entries ++ [fmtEntry ts c],
            stats := { st.stats with
              valid_entries := st.stats.valid_entries + 1 } } : CleanerState).seen_commands
            = insertSeen st.seen_commands (normalize_command c) from rfl]
          rw [mem_insertSeen, hseen x, hnk]
          simp [List.mem_cons])
      refine ⟨st', ?_, ?_, ?_⟩
      · simp only [processEntries, hpe]
        exact hps
      · exact hdup
      · intro x
        rw [hs x]
        simp only [List.map_cons, List.mem_cons, List.mem_append]
        tauto

/-- C8: the pipeline is idempotent with respect to duplicates — rerunning
`runHistory` with the same configuration on the kept entries of a successful
run succeeds and removes zero duplicates: every kept entry is re-parsed
verbatim, makes the same rule decisions, and its normalized command is again
unseen at the moment it is reprocessed. -/
theorem C8_idempotent_second_pass (cfg : CleanerConfig) (lines : List Str)
    (st1 : CleanerState) (h1 : runHistory cfg lines = .ok st1) :
    ∃ st2, runHistory cfg st1.cleaned_entries = .ok st2 ∧
      st2.stats.duplicates_removed = 0 := by
  obtain ⟨hseen1, hgood1⟩ := runHistory_inv h1
  rw [runHistory_eq]
  cases hK : st1.cleaned_entries with
  | nil =>
    have hloop : historyLoop cfg ([] : List Str) []
        { stats := { total_lines := ([] : List Str).length } } =
        .ok { stats := { total_lines := ([] : List Str).length } } := by
      rw [historyLoop_nil]
      simp
    refine ⟨{ stats := { total_lines := ([] : List Str).length } }, ?_, rfl⟩
    rw [hloop]
    rfl
  | cons k ks =>
    have hgood' : GoodFrom cfg [] (k :: ks) := hK ▸ hgood1
    have hfacts := goodFrom_entry_facts hgood'
    have hkfact := hfacts k (List.mem_cons_self k ks)
    have hkne : k ≠ [] := by
      intro hnil
      rw [hnil] at hkfact
      exact absurd hkfact.2 (by decide)
    have hloop : historyLoop cfg (k :: ks) []
        { stats := { total_lines := (k :: ks).length } } =
        processEntries cfg { stats := { total_lines := (k :: ks).length } } (k :: ks) := by
      rw [historyLoop_cons, hkfact.1, if_pos hkfact.2, if_neg (by simp)]
      exact loop_as_entries ks k _ (fun k' hk' => hfacts k' (List.mem_cons_of_mem _ hk')) hkne
    have hseen0 : ∀ x, x ∈ ({ stats := { total_lines := (k :: ks).length } } :
        CleanerState).seen_commands ↔ x ∈ ([] : List Str) := by
      intro x
      simp
    obtain ⟨st', hps, hdup, _⟩ :=
      entries_no_dup (k :: ks) [] { stats := { total_lines := (k :: ks).length } }
        hgood' hseen0
    refine ⟨{ st' with stats :=
      { st'.stats with final_entries := st'.cleaned_entries.length } }, ?_, ?_⟩
    · rw [hloop, hps]
    · exact hdup

/-- Witness for `C8_idempotent_second_pass`: after cleaning the duplicate pair
`": 1:0;echo hi"` (kept once, one duplicate removed), a second run over the
single kept entry removes zero duplicates. -/
theorem C8_idempotent_second_pass_witness :
    runHistory cfgNoRules linesDup = .ok stDup ∧
    (∃ st2, runHistory cfgNoRules stDup.cleaned_entries = .ok st2 ∧
      st2.stats.duplicates_removed = 0) :=
  ⟨by decide, C8_idempotent_second_pass cfgNoRules linesDup stDup (by decide)⟩
